import Mathlib

/-!
Shallow embedding of the Model Cache & Acquisition Subsystem of the
Local-Host-Audio-Summarizer repository.

The embedding covers the two classes that carry the logic under scrutiny:

* the model cache manager (cache index, lookup, insertion, LRU eviction sweep), and
* the model config manager (catalog, disk-space check, download pipeline,
  acquisition orchestrator).

JavaScript `Map` objects are modelled as insertion-ordered association lists
with pairwise-distinct keys, the filesystem as an association list from paths
to byte sizes, timestamps as natural numbers (epoch milliseconds), and the
JS numeric arithmetic on byte totals as integer arithmetic (the quantities
involved stay far below 2^53, where JS numbers are exact).  Fallible
operations return `Option`; external effects (fetch outcome, file-deletion
success, digest comparison, free disk space) are supplied by an explicit
environment.
-/

namespace AudioSummarizer

/-- A cache index record, transcribing the ModelCacheEntry interface of the
model cache source file: cached file path, last-used epoch milliseconds,
size in bytes, and version string. -/
structure ModelCacheEntry where
  path : String
  lastUsed : Nat
  size : Nat
  version : String
deriving DecidableEq, Repr

/-- The in-memory cache index, a JS Map from model name to cache entry,
modelled as an insertion-ordered association list with distinct keys. -/
abbrev CacheIndex := List (String × ModelCacheEntry)

/-- maxCacheSize of the cache manager constructor: 10 GiB in bytes. -/
def maxCacheSize : Nat := 10 * 1024 * 1024 * 1024

/-- maxModelAge of the cache manager constructor: 30 days in milliseconds. -/
def maxModelAge : Nat := 30 * 24 * 60 * 60 * 1000

/-- Map.get: the entry stored under a name, if any. -/
def mapGet (index : CacheIndex) (name : String) : Option ModelCacheEntry :=
  (index.find? (fun p => p.1 == name)).map Prod.snd

/-- Map.set: replace the entry under an existing key in place, or append a
new binding (JS Maps keep the original insertion position on overwrite). -/
def mapSet (index : CacheIndex) (name : String) (e : ModelCacheEntry) : CacheIndex :=
  if index.any (fun p => p.1 == name) then
    index.map (fun p => if p.1 == name then (name, e) else p)
  else
    index ++ [(name, e)]

/-- Map.delete: drop the binding for a name. -/
def mapDelete (index : CacheIndex) (name : String) : CacheIndex :=
  index.filter (fun p => !(p.1 == name))

/-- The filesystem visible to the subsystem: existing regular files with
their byte sizes. -/
abbrev FS := List (String × Nat)

/-- fs.stat/fs.access: the size of the file at a path, or none when the path
does not exist (the stat call throws). -/
def lookupFS (fs : FS) (p : String) : Option Nat :=
  (fs.find? (fun q => q.1 == p)).map Prod.snd

/-- fs.writeFile: create or overwrite the file at a path with a body of the
given size. -/
def fsWrite (fs : FS) (p : String) (size : Nat) : FS :=
  if fs.any (fun q => q.1 == p) then
    fs.map (fun q => if q.1 == p then (p, size) else q)
  else
    fs ++ [(p, size)]

/-- Stable insertion of an entry in front of the first entry whose lastUsed
is not smaller.  Together with sortEntries this models the JS call
Array.prototype.sort with comparator (a, b) => a[1].lastUsed - b[1].lastUsed:
that sort is specified to be stable, and a stable sort's output is uniquely
determined by the comparator, so any stable sort is a faithful model. -/
def insertEntry (p : String × ModelCacheEntry) :
    List (String × ModelCacheEntry) → List (String × ModelCacheEntry)
  | [] => [p]
  | q :: rest =>
    if p.2.lastUsed ≤ q.2.lastUsed then p :: q :: rest
    else q :: insertEntry p rest

/-- Stable sort of the cache entries by ascending lastUsed (oldest first),
line 142 of the cache source. -/
def sortEntries : CacheIndex → CacheIndex
  | [] => []
  | p :: rest => insertEntry p (sortEntries rest)

/-- The reduce computing currentCacheSize: total size in bytes of the listed
entries. -/
def totalSize (l : CacheIndex) : Int :=
  l.foldl (fun t p => t + (p.2.size : Int)) 0

/-- The while loop of manageCacheSize.  Walks the sorted entries; while the
running total exceeds maxCacheSize, attempts fs.unlink on the oldest
remaining entry (`del` tells which paths can be unlinked; a failed unlink is
caught, logged, and the loop continues without touching the index or the
running total).  On a successful unlink the entry is deleted from the index
and its size subtracted.  Returns the resulting index and the list of
unlinked paths in order. -/
def evictLoop (del : String → Bool) :
    List (String × ModelCacheEntry) → CacheIndex → Int → CacheIndex × List String
  | [], index, _ => (index, [])
  | (name, e) :: rest, index, current =>
    if (maxCacheSize : Int) < current then
      if del e.path then
        let r := evictLoop del rest (mapDelete index name) (current - (e.size : Int))
        (r.1, e.path :: r.2)
      else
        evictLoop del rest index current
    else
      (index, [])

/-- manageCacheSize: sort the entries oldest-first, compute the total cached
bytes, and evict oldest entries while the total exceeds maxCacheSize. -/
def manageCacheSize (del : String → Bool) (index : CacheIndex) : CacheIndex × List String :=
  evictLoop del (sortEntries index) index (totalSize (sortEntries index))

/-- Result of getModelFromCache: the returned path (null modelled as none),
the updated in-memory index, and whether saveCacheIndex was invoked (the
index was persisted). -/
structure LookupResult where
  ret : Option String
  index : CacheIndex
  saved : Bool
deriving DecidableEq, Repr

/-- getModelFromCache: look the name up in the index; stat the backing file
(a missing file makes stat throw, upon which the entry is deleted and the
index saved); a present file that was last used within maxModelAge is a hit
whose lastUsed is refreshed and persisted; otherwise the lookup returns
null and leaves the index alone. -/
def getModelFromCache (now : Nat) (fs : FS) (index : CacheIndex)
    (modelName : String) : LookupResult :=
  match mapGet index modelName with
  | none => ⟨none, index, false⟩
  | some e =>
    match lookupFS fs e.path with
    | some _ =>
      if now - e.lastUsed < maxModelAge then
        ⟨some e.path, mapSet index modelName { e with lastUsed := now }, true⟩
      else
        ⟨none, index, false⟩
    | none => ⟨none, mapDelete index modelName, true⟩

/-- The cache filename computed at lines 78-85 of the cache source:
cacheDir, a sha-256 hex digest of "name-version", a dash, and the base name
of the source path.  The sha-256 digest is an external crypto primitive; it
is modelled by its preimage string, and the base name by the path itself
(neither is interpreted by any code under scrutiny). -/
def cachedPathFor (modelName version modelPath : String) : String :=
  "model-cache/" ++ modelName ++ "-" ++ version ++ "-" ++ modelPath

/-- Result of cacheModel: the returned cached path (a thrown error modelled
as none), the resulting index, and the paths unlinked by the eviction
sweep. -/
structure CacheModelResult where
  ret : Option String
  index : CacheIndex
  deleted : List String
deriving DecidableEq, Repr

/-- cacheModel: stat the source artifact (a missing file throws and the
error is rethrown after logging), copy it into the cache, insert a fresh
entry with lastUsed = now, persist the index, run the eviction sweep, and
return the cached path. -/
def cacheModel (del : String → Bool) (now : Nat) (fs : FS) (index : CacheIndex)
    (modelName modelPath version : String) : CacheModelResult :=
  match lookupFS fs modelPath with
  | none => ⟨none, index, []⟩
  | some size =>
    let cachedModelPath := cachedPathFor modelName version modelPath
    let entry : ModelCacheEntry := ⟨cachedModelPath, now, size, version⟩
    let index1 := mapSet index modelName entry
    let r := manageCacheSize del index1
    ⟨some cachedModelPath, r.1, r.2⟩

/-- The closed set of model kinds of the config source. -/
inductive ModelType
  | transcription
  | summarization
deriving DecidableEq, Repr

/-- A catalog descriptor, transcribing the ModelConfig interface. -/
structure ModelConfig where
  name : String
  type : ModelType
  url : String
  checksum : String
  localPath : String
  version : String
  requiredDiskSpace : Nat
deriving DecidableEq, Repr

/-- Outcome of the network fetch of a download attempt: a 2xx response
carrying a body of the given size, a non-ok response status, or a network
or timeout error thrown by fetch. -/
inductive FetchOutcome
  | success (bodySize : Nat)
  | httpError
  | netError
deriving DecidableEq, Repr

/-- The external environment of one acquisition: the current time, the
available-bytes answer of the disk-space oracle (none when the probe
throws), the outcome the network would produce, whether fs.writeFile
succeeds, the digest comparison computed by verifyModelChecksum (sha-256 is
an external crypto primitive, modelled as an oracle from file path and
expected digest to the comparison result, false also covering a read
failure during hashing), and which paths fs.unlink can delete. -/
structure Env where
  now : Nat
  diskAvailable : Option Nat
  fetch : FetchOutcome
  writeOk : Bool
  digestMatches : String → String → Bool
  del : String → Bool

/-- checkDiskSpace: true when the available bytes strictly exceed the
required bytes; any error in the probe yields false. -/
def checkDiskSpace (env : Env) (requiredSpace : Nat) : Bool :=
  match env.diskAvailable with
  | some available => requiredSpace < available
  | none => false

/-- Result of downloadModel: the returned path (null modelled as none), the
resulting index and filesystem, whether a network fetch was issued, and the
cache paths unlinked by the eviction sweep. -/
structure DownloadResult where
  ret : Option String
  index : CacheIndex
  fs : FS
  fetched : Bool
  deleted : List String

/-- downloadModel: verify disk space (insufficient space returns null
before any network activity), re-check the cache, then fetch the source
URL under a five-minute deadline; a non-ok status or a fetch error is
thrown and caught, returning null; on success the body is written to
localPath and the file is inserted into the cache via cacheModel. -/
def downloadModel (env : Env) (fs : FS) (index : CacheIndex)
    (config : ModelConfig) : DownloadResult :=
  if checkDiskSpace env config.requiredDiskSpace then
    let lk := getModelFromCache env.now fs index config.name
    match lk.ret with
    | some p => ⟨some p, lk.index, fs, false, []⟩
    | none =>
      match env.fetch with
      | .httpError => ⟨none, lk.index, fs, true, []⟩
      | .netError => ⟨none, lk.index, fs, true, []⟩
      | .success bodySize =>
        if env.writeOk then
          let fs1 := fsWrite fs config.localPath bodySize
          let r := cacheModel env.del env.now fs1 lk.index config.name
            config.localPath config.version
          ⟨r.ret, r.index, fs1, true, r.deleted⟩
        else
          ⟨none, lk.index, fs, true, []⟩
  else
    ⟨none, index, fs, false, []⟩

/-- Result of ensureModelAvailable: the returned descriptor (null modelled
as none), the resulting index and filesystem, whether a network fetch was
issued, and the cache paths unlinked by eviction sweeps. -/
structure EnsureResult where
  ret : Option ModelConfig
  index : CacheIndex
  fs : FS
  fetched : Bool
  deleted : List String

/-- ensureModelAvailable: resolve the catalog descriptor for the requested
kind (absent yields null); query the cache, a hit returning the descriptor
with localPath rebound to the cached path; on a miss, probe localPath: if
the file exists and a declared checksum mismatches, return null without
deleting the file or downloading; if it exists and the checksum is absent
or matches, insert it into the cache and return the descriptor unchanged
(a cacheModel failure falls into the catch that attempts a download); if
the file is absent, fall back to downloadModel. -/
def ensureModelAvailable (env : Env) (fs : FS) (index : CacheIndex)
    (configs : List ModelConfig) (modelType : ModelType) : EnsureResult :=
  match configs.find? (fun c => c.type == modelType) with
  | none => ⟨none, index, fs, false, []⟩
  | some config =>
    let lk := getModelFromCache env.now fs index config.name
    match lk.ret with
    | some p => ⟨some { config with localPath := p }, lk.index, fs, false, []⟩
    | none =>
      match lookupFS fs config.localPath with
      | some _ =>
        if config.checksum != "" && !env.digestMatches config.localPath config.checksum then
          ⟨none, lk.index, fs, false, []⟩
        else
          let r := cacheModel env.del env.now fs lk.index config.name
            config.localPath config.version
          match r.ret with
          | some _ => ⟨some config, r.index, fs, false, r.deleted⟩
          | none =>
            let d := downloadModel env fs r.index config
            match d.ret with
            | some p => ⟨some { config with localPath := p }, d.index, d.fs, d.fetched, d.deleted⟩
            | none => ⟨none, d.index, d.fs, d.fetched, d.deleted⟩
      | none =>
        let d := downloadModel env fs lk.index config
        match d.ret with
        | some p => ⟨some { config with localPath := p }, d.index, d.fs, d.fetched, d.deleted⟩
        | none => ⟨none, d.index, d.fs, d.fetched, d.deleted⟩

/-- Reference sweep counter, transcribing the eviction clause of the
specification: while the running total exceeds the ceiling and at least one
entry remains, step past the oldest remaining entry and subtract its size;
the value is the number of entries so evicted. -/
def sweepSteps : List (String × ModelCacheEntry) → Int → Nat
  | [], _ => 0
  | p :: rest, current =>
    if (maxCacheSize : Int) < current then
      sweepSteps rest (current - (p.2.size : Int)) + 1
    else 0

/-! ### Concrete fixtures used by witnesses and counterexamples -/

/-- A 5 GiB artifact cached at time 1. -/
def demoEntryA : ModelCacheEntry := ⟨"cache/a.bin", 1, 5 * 1024 * 1024 * 1024, "1.0.0"⟩

/-- A 5 GiB artifact cached at time 2. -/
def demoEntryB : ModelCacheEntry := ⟨"cache/b.bin", 2, 5 * 1024 * 1024 * 1024, "1.0.0"⟩

/-- A 5 GiB artifact cached at time 3. -/
def demoEntryC : ModelCacheEntry := ⟨"cache/c.bin", 3, 5 * 1024 * 1024 * 1024, "1.0.0"⟩

/-- A 5 GiB artifact cached at time 4 (the freshly inserted fourth entry). -/
def demoEntryD : ModelCacheEntry := ⟨"cache/d.bin", 4, 5 * 1024 * 1024 * 1024, "1.0.0"⟩

/-- The index state right after inserting the fourth 5 GiB entry. -/
def demoIndex4 : CacheIndex :=
  [("a", demoEntryA), ("b", demoEntryB), ("c", demoEntryC), ("d", demoEntryD)]

/-- A one-entry index whose total (5 GiB) is under the 10 GiB ceiling. -/
def demoSmallIndex : CacheIndex := [("a", demoEntryA)]

/-- An entry bigger than the whole cache ceiling whose file deletion the
environment refuses. -/
def cexFailEntry : ModelCacheEntry := ⟨"cache/fail.bin", 1, maxCacheSize + 1, "1.0.0"⟩

/-- A small entry last used at epoch 0, whose backing file still exists. -/
def oldEntryFixture : ModelCacheEntry := ⟨"cache/old.bin", 0, 100, "1.0.0"⟩

/-- A small entry whose backing file was deleted out-of-band. -/
def staleEntryFixture : ModelCacheEntry := ⟨"cache/gone.bin", 0, 100, "1.0.0"⟩

/-- A 6 GiB artifact cached at time 5, inserted first under name "b". -/
def tieEntryB : ModelCacheEntry := ⟨"cache/tie-b.bin", 5, 6 * 1024 * 1024 * 1024, "1.0.0"⟩

/-- A 6 GiB artifact cached at time 5, inserted second under name "a". -/
def tieEntryA : ModelCacheEntry := ⟨"cache/tie-a.bin", 5, 6 * 1024 * 1024 * 1024, "1.0.0"⟩

/-- A catalog descriptor with no declared checksum. -/
def demoConfig : ModelConfig :=
  ⟨"whisper-small", .transcription, "https://example.org/ggml-small.bin", "",
    "models/whisper-small.bin", "1.0.0", 100⟩

/-- A catalog descriptor that declares a checksum. -/
def demoChecksumConfig : ModelConfig :=
  ⟨"whisper-small", .transcription, "https://example.org/ggml-small.bin", "abc123",
    "models/whisper-small.bin", "1.0.0", 100⟩

/-- An environment whose available disk space equals demoConfig's
requiredDiskSpace exactly. -/
def cexBoundaryEnv : Env := ⟨0, some 100, .success 50, true, fun _ _ => true, fun _ => true⟩

/-- An environment with ample disk space whose fetch would answer with a
non-ok status. -/
def demoHttpFailEnv : Env := ⟨0, some 1000, .httpError, true, fun _ _ => true, fun _ => true⟩

/-- An environment with ample disk space whose digest comparison always
fails. -/
def demoBadDigestEnv : Env := ⟨0, some 1000, .success 50, true, fun _ _ => false, fun _ => true⟩

/-! ### Arithmetic of totalSize -/

theorem foldl_size_acc (l : CacheIndex) (t : Int) :
    l.foldl (fun a p => a + (p.2.size : Int)) t = t + totalSize l := by
  induction l generalizing t with
  | nil => simp [totalSize]
  | cons p rest ih =>
    simp only [totalSize, List.foldl_cons] at *
    rw [ih, ih (0 + (p.2.size : Int))]
    ring

theorem totalSize_nil : totalSize [] = 0 := rfl

theorem totalSize_cons (p : String × ModelCacheEntry) (l : CacheIndex) :
    totalSize (p :: l) = (p.2.size : Int) + totalSize l := by
  show List.foldl _ 0 (p :: l) = _
  rw [List.foldl_cons, foldl_size_acc]
  ring

theorem totalSize_append (l₁ l₂ : CacheIndex) :
    totalSize (l₁ ++ l₂) = totalSize l₁ + totalSize l₂ := by
  induction l₁ with
  | nil => simp [totalSize_nil]
  | cons p rest ih => simp [totalSize_cons, ih]; ring

theorem totalSize_nonneg (l : CacheIndex) : 0 ≤ totalSize l := by
  induction l with
  | nil => simp [totalSize_nil]
  | cons p rest ih => rw [totalSize_cons]; positivity

theorem totalSize_perm {l l' : CacheIndex} (h : l.Perm l') :
    totalSize l = totalSize l' := by
  induction h with
  | nil => rfl
  | cons p _ ih => rw [totalSize_cons, totalSize_cons, ih]
  | swap p q rest => rw [totalSize_cons, totalSize_cons, totalSize_cons, totalSize_cons]; ring
  | trans _ _ ih₁ ih₂ => rw [ih₁, ih₂]

theorem mem_le_totalSize {p : String × ModelCacheEntry} {l : CacheIndex}
    (h : p ∈ l) : (p.2.size : Int) ≤ totalSize l := by
  induction l with
  | nil => cases h
  | cons q rest ih =>
    rw [totalSize_cons]
    rcases List.mem_cons.mp h with rfl | hmem
    · have := totalSize_nonneg rest; omega
    · have := ih hmem
      have : (0 : Int) ≤ q.2.size := by positivity
      omega

/-! ### The stable sort -/

theorem insertEntry_perm (p : String × ModelCacheEntry) (l : CacheIndex) :
    (insertEntry p l).Perm (p :: l) := by
  induction l with
  | nil => simp [insertEntry]
  | cons q rest ih =>
    unfold insertEntry
    split
    · exact List.Perm.refl _
    · exact (ih.cons q).trans (List.Perm.swap p q rest)

theorem sortEntries_perm (l : CacheIndex) : (sortEntries l).Perm l := by
  induction l with
  | nil => exact List.Perm.refl _
  | cons p rest ih => exact (insertEntry_perm p (sortEntries rest)).trans (ih.cons p)

theorem insertEntry_sorted {l : CacheIndex} (p : String × ModelCacheEntry)
    (h : l.Pairwise (fun a b => a.2.lastUsed ≤ b.2.lastUsed)) :
    (insertEntry p l).Pairwise (fun a b => a.2.lastUsed ≤ b.2.lastUsed) := by
  induction l with
  | nil => simp [insertEntry]
  | cons q rest ih =>
    rcases List.pairwise_cons.mp h with ⟨hq, hrest⟩
    unfold insertEntry
    split
    · rename_i hle
      refine List.pairwise_cons.mpr ⟨?_, h⟩
      intro b hb
      rcases List.mem_cons.mp hb with rfl | hmem
      · exact hle
      · exact le_trans hle (hq b hmem)
    · rename_i hgt
      refine List.pairwise_cons.mpr ⟨?_, ih hrest⟩
      intro b hb
      have hb' := (insertEntry_perm p rest).mem_iff.mp hb
      rcases List.mem_cons.mp hb' with rfl | hmem
      · omega
      · exact hq b hmem

theorem sortEntries_sorted (l : CacheIndex) :
    (sortEntries l).Pairwise (fun a b => a.2.lastUsed ≤ b.2.lastUsed) := by
  induction l with
  | nil => simp [sortEntries]
  | cons p rest ih => exact insertEntry_sorted p ih

theorem sublist_insertEntry (p : String × ModelCacheEntry) (l : CacheIndex) :
    l.Sublist (insertEntry p l) := by
  induction l with
  | nil => simp [insertEntry]
  | cons q rest ih =>
    unfold insertEntry
    split
    · exact (List.Sublist.refl _).cons p
    · exact ih.cons₂ q

theorem pair_sublist_insertEntry {s : CacheIndex} {p q : String × ModelCacheEntry}
    (hs : s.Pairwise (fun a b => a.2.lastUsed ≤ b.2.lastUsed))
    (hq : q ∈ s) (hpq : p.2.lastUsed ≤ q.2.lastUsed) :
    [p, q].Sublist (insertEntry p s) := by
  induction s with
  | nil => cases hq
  | cons y s₁ ih =>
    unfold insertEntry
    split
    · exact (List.singleton_sublist.mpr hq).cons₂ p
    · rename_i hgt
      rcases List.mem_cons.mp hq with rfl | hmem
      · omega
      · exact (ih (List.pairwise_cons.mp hs).2 hmem).cons y

theorem sortEntries_stable {l : CacheIndex} {p q : String × ModelCacheEntry}
    (hsub : [p, q].Sublist l) (hpq : p.2.lastUsed ≤ q.2.lastUsed) :
    [p, q].Sublist (sortEntries l) := by
  induction l with
  | nil => cases hsub
  | cons x rest ih =>
    cases hsub with
    | cons _ h => exact (ih h).trans (sublist_insertEntry x (sortEntries rest))
    | cons₂ _ h =>
      have hqmem : q ∈ sortEntries rest :=
        (sortEntries_perm rest).mem_iff.mpr (List.singleton_sublist.mp h)
      exact pair_sublist_insertEntry (sortEntries_sorted rest) hqmem hpq

/-! ### Map operations -/

theorem mem_mapDelete {index : CacheIndex} {n : String} {p : String × ModelCacheEntry} :
    p ∈ mapDelete index n ↔ p ∈ index ∧ p.1 ≠ n := by
  simp [mapDelete, List.mem_filter]

theorem mapDelete_sublist (index : CacheIndex) (n : String) :
    (mapDelete index n).Sublist index :=
  List.filter_sublist index

theorem nodup_mapDelete {index : CacheIndex} (n : String)
    (h : (index.map Prod.fst).Nodup) : ((mapDelete index n).map Prod.fst).Nodup :=
  ((mapDelete_sublist index n).map Prod.fst).nodup h

theorem mapDelete_eq_self {index : CacheIndex} {n : String}
    (h : ∀ p ∈ index, p.1 ≠ n) : mapDelete index n = index := by
  refine List.filter_eq_self.mpr ?_
  intro p hp
  simpa using h p hp

theorem mapDelete_cons_self (n : String) (e : ModelCacheEntry) (l : CacheIndex) :
    mapDelete ((n, e) :: l) n = mapDelete l n := by
  simp [mapDelete]

theorem mapDelete_append (l₁ l₂ : CacheIndex) (n : String) :
    mapDelete (l₁ ++ l₂) n = mapDelete l₁ n ++ mapDelete l₂ n := by
  simp [mapDelete]

theorem mapGet_eq_none {index : CacheIndex} {n : String}
    (h : ∀ p ∈ index, p.1 ≠ n) : mapGet index n = none := by
  have : index.find? (fun p => p.1 == n) = none := by
    refine List.find?_eq_none.mpr ?_
    intro p hp
    simpa using h p hp
  simp [mapGet, this]

theorem nodup_keys_eq {index : CacheIndex} {n : String} {a b : ModelCacheEntry}
    (hnd : (index.map Prod.fst).Nodup) (ha : (n, a) ∈ index) (hb : (n, b) ∈ index) :
    a = b := by
  induction index with
  | nil => cases ha
  | cons p rest ih =>
    have hnd' := hnd
    rw [List.map_cons, List.nodup_cons] at hnd'
    rcases List.mem_cons.mp ha with rfl | ha' <;>
      rcases List.mem_cons.mp hb with hb' | hb'
    · exact (congrArg Prod.snd hb').symm
    · exact absurd (List.mem_map.mpr ⟨(n, b), hb', rfl⟩) hnd'.1
    · rw [← hb'] at hnd'
      exact absurd (List.mem_map.mpr ⟨(n, a), ha', rfl⟩) hnd'.1
    · exact ih hnd'.2 ha' hb'

theorem mem_mapSet_self (index : CacheIndex) (n : String) (e : ModelCacheEntry) :
    (n, e) ∈ mapSet index n e := by
  unfold mapSet
  split
  · rename_i hany
    rcases List.any_eq_true.mp hany with ⟨p, hp, hpn⟩
    refine List.mem_map.mpr ⟨p, hp, ?_⟩
    simp [hpn]
  · exact List.mem_append_right _ (List.mem_singleton.mpr rfl)

theorem nodup_mapSet {index : CacheIndex} (n : String) (e : ModelCacheEntry)
    (h : (index.map Prod.fst).Nodup) : ((mapSet index n e).map Prod.fst).Nodup := by
  unfold mapSet
  split
  · rw [List.map_map]
    have : index.map (Prod.fst ∘ fun p => if p.1 == n then (n, e) else p) =
        index.map Prod.fst := by
      refine List.map_congr_left ?_
      intro p _
      by_cases hpn : p.1 = n
      · simp [hpn]
      · simp [hpn]
    rw [this]
    exact h
  · rename_i hany
    have hnotin : n ∉ index.map Prod.fst := by
      intro hmem
      rcases List.mem_map.mp hmem with ⟨p, hp, hpn⟩
      have : index.any (fun p => p.1 == n) = true :=
        List.any_eq_true.mpr ⟨p, hp, by simp [hpn]⟩
      exact hany this
    rw [List.map_append]
    refine List.nodup_append.mpr ⟨h, List.nodup_singleton n, ?_⟩
    intro a ha hb
    simp only [List.map_cons, List.map_nil, List.mem_singleton] at hb
    exact hnotin (hb ▸ ha)

/-! ### Behaviour of the eviction loop -/

theorem evictLoop_del_all (rest : List (String × ModelCacheEntry)) (index : CacheIndex)
    (current : Int) (hperm : index.Perm rest) (hnd : (rest.map Prod.fst).Nodup) :
    (evictLoop (fun _ => true) rest index current).2 =
      (rest.take (sweepSteps rest current)).map (fun p => p.2.path) ∧
    (evictLoop (fun _ => true) rest index current).1.Perm
      (rest.drop (sweepSteps rest current)) := by
  induction rest generalizing index current with
  | nil =>
    refine ⟨rfl, ?_⟩
    simpa [evictLoop] using hperm
  | cons pe rest ih =>
    obtain ⟨n, e⟩ := pe
    by_cases hc : (maxCacheSize : Int) < current
    · have hnotin : ∀ p ∈ rest, p.1 ≠ n := by
        intro p hp hpn
        rw [List.map_cons, List.nodup_cons] at hnd
        exact hnd.1 (List.mem_map.mpr ⟨p, hp, hpn⟩)
      have hperm' : (mapDelete index n).Perm rest := by
        have h1 : (mapDelete index n).Perm (mapDelete ((n, e) :: rest) n) := hperm.filter _
        rwa [mapDelete_cons_self, mapDelete_eq_self hnotin] at h1
      have hnd' : (rest.map Prod.fst).Nodup := by
        rw [List.map_cons, List.nodup_cons] at hnd; exact hnd.2
      obtain ⟨h1, h2⟩ := ih (mapDelete index n) (current - (e.size : Int)) hperm' hnd'
      have hunf : evictLoop (fun _ => true) ((n, e) :: rest) index current =
          ((evictLoop (fun _ => true) rest (mapDelete index n) (current - (e.size : Int))).1,
           e.path ::
            (evictLoop (fun _ => true) rest (mapDelete index n) (current - (e.size : Int))).2) := by
        simp [evictLoop, hc]
      have hk : sweepSteps ((n, e) :: rest) current =
          sweepSteps rest (current - (e.size : Int)) + 1 := by
        simp [sweepSteps, hc]
      rw [hunf, hk]
      exact ⟨by simpa [List.take_succ_cons] using h1, by simpa [List.drop_succ_cons] using h2⟩
    · have hunf : evictLoop (fun _ => true) ((n, e) :: rest) index current = (index, []) := by
        simp [evictLoop, hc]
      have hk : sweepSteps ((n, e) :: rest) current = 0 := by
        simp [sweepSteps, hc]
      rw [hunf, hk]
      exact ⟨rfl, hperm⟩

theorem sweepSteps_post (l : List (String × ModelCacheEntry)) (current : Int) :
    current - totalSize (l.take (sweepSteps l current)) ≤ (maxCacheSize : Int) ∨
      l.drop (sweepSteps l current) = [] := by
  induction l generalizing current with
  | nil => right; simp
  | cons p rest ih =>
    by_cases hc : (maxCacheSize : Int) < current
    · rcases ih (current - (p.2.size : Int)) with h | h
      · left
        simp only [sweepSteps, if_pos hc, List.take_succ_cons, totalSize_cons]
        omega
      · right
        simpa only [sweepSteps, if_pos hc, List.drop_succ_cons] using h
    · left
      simp only [sweepSteps, if_neg hc, List.take_zero, totalSize_nil]
      omega

theorem evictLoop_post (del : String → Bool) (rest : List (String × ModelCacheEntry))
    (index done : CacheIndex) (current : Int)
    (hperm : index.Perm (done ++ rest))
    (hnd : ((done ++ rest).map Prod.fst).Nodup)
    (hdone : ∀ p ∈ done, del p.2.path = false)
    (hcur : current = totalSize index) :
    totalSize (evictLoop del rest index current).1 ≤ (maxCacheSize : Int) ∨
      ∀ p ∈ (evictLoop del rest index current).1, del p.2.path = false := by
  induction rest generalizing index done current with
  | nil =>
    right
    intro p hp
    have hp' : p ∈ done := by
      have := hperm.mem_iff.mp (by simpa [evictLoop] using hp)
      simpa using this
    exact hdone p hp'
  | cons pe rest ih =>
    obtain ⟨n, e⟩ := pe
    by_cases hc : (maxCacheSize : Int) < current
    · rcases hdel : del e.path with _ | _
      · -- unlink fails: the entry is kept, the loop moves on unchanged
        have hunf : evictLoop del ((n, e) :: rest) index current =
            evictLoop del rest index current := by
          simp [evictLoop, hc, hdel]
        rw [hunf]
        refine ih index (done ++ [(n, e)]) current ?_ ?_ ?_ hcur
        · rwa [List.append_assoc, List.singleton_append]
        · rwa [List.append_assoc, List.singleton_append]
        · intro p hp
          rcases List.mem_append.mp hp with hp' | hp'
          · exact hdone p hp'
          · rw [List.mem_singleton.mp hp']
            exact hdel
      · -- unlink succeeds: the entry leaves both the index and the total
        have hkeys := hnd
        rw [List.map_append, List.map_cons, List.nodup_append] at hkeys
        obtain ⟨hnddone, hndcons, hdisj⟩ := hkeys
        rw [List.nodup_cons] at hndcons
        have hdonen : ∀ p ∈ done, p.1 ≠ n := by
          intro p hp hpn
          exact hdisj (List.mem_map.mpr ⟨p, hp, hpn⟩) (List.mem_cons_self _ _)
        have hrestn : ∀ p ∈ rest, p.1 ≠ n := by
          intro p hp hpn
          exact hndcons.1 (List.mem_map.mpr ⟨p, hp, hpn⟩)
        have hperm' : (mapDelete index n).Perm (done ++ rest) := by
          have h1 : (mapDelete index n).Perm (mapDelete (done ++ (n, e) :: rest) n) :=
            hperm.filter _
          rwa [mapDelete_append, mapDelete_cons_self, mapDelete_eq_self hdonen,
            mapDelete_eq_self hrestn] at h1
        have hnd' : ((done ++ rest).map Prod.fst).Nodup := by
          have hsub : (done ++ rest).Sublist (done ++ (n, e) :: rest) :=
            List.Sublist.append_left (List.sublist_cons_self _ _) done
          exact (hsub.map Prod.fst).nodup hnd
        have hcur' : current - (e.size : Int) = totalSize (mapDelete index n) := by
          have h1 : totalSize index = totalSize (done ++ (n, e) :: rest) :=
            totalSize_perm hperm
          have h2 : totalSize (mapDelete index n) = totalSize (done ++ rest) :=
            totalSize_perm hperm'
          rw [totalSize_append, totalSize_cons] at h1
          rw [totalSize_append] at h2
          have h1' : totalSize index = totalSize done + ((e.size : Int) + totalSize rest) := h1
          omega
        have hunf : (evictLoop del ((n, e) :: rest) index current).1 =
            (evictLoop del rest (mapDelete index n) (current - (e.size : Int))).1 := by
          simp [evictLoop, hc, hdel]
        rw [hunf]
        exact ih (mapDelete index n) done (current - (e.size : Int)) hperm' hnd' hdone hcur'
    · left
      have hunf : evictLoop del ((n, e) :: rest) index current = (index, []) := by
        simp [evictLoop, hc]
      rw [hunf]
      show totalSize index ≤ (maxCacheSize : Int)
      omega

theorem evictLoop_all_fail (del : String → Bool) (rest : List (String × ModelCacheEntry))
    (index : CacheIndex) (current : Int)
    (h : ∀ p ∈ rest, del p.2.path = false) :
    evictLoop del rest index current = (index, []) := by
  induction rest generalizing current with
  | nil => rfl
  | cons pe rest ih =>
    obtain ⟨n, e⟩ := pe
    by_cases hc : (maxCacheSize : Int) < current
    · have hd : del e.path = false := h (n, e) (List.mem_cons_self _ _)
      have hunf : evictLoop del ((n, e) :: rest) index current =
          evictLoop del rest index current := by
        simp [evictLoop, hc, hd]
      rw [hunf]
      exact ih current (fun p hp => h p (List.mem_cons_of_mem _ hp))
    · simp [evictLoop, hc]

theorem manageCacheSize_noop (del : String → Bool) (index : CacheIndex)
    (h : totalSize index ≤ (maxCacheSize : Int) ∨ ∀ p ∈ index, del p.2.path = false) :
    manageCacheSize del index = (index, []) := by
  rcases h with h | h
  · unfold manageCacheSize
    have htot : totalSize (sortEntries index) = totalSize index :=
      totalSize_perm (sortEntries_perm index)
    cases hs : sortEntries index with
    | nil => rfl
    | cons p rest =>
      rw [hs] at htot
      have hc : ¬ ((maxCacheSize : Int) < totalSize (p :: rest)) := by
        rw [htot]; omega
      simp [evictLoop, hc]
  · exact evictLoop_all_fail del _ index _
      (fun p hp => h p ((sortEntries_perm index).mem_iff.mp hp))

theorem evictLoop_retains {del : String → Bool} {name : String} {e : ModelCacheEntry}
    (hdel : del e.path = false) (rest : List (String × ModelCacheEntry)) :
    ∀ (index : CacheIndex) (current : Int),
      (name, e) ∈ index → (∀ e', (name, e') ∈ rest → e' = e) →
      (name, e) ∈ (evictLoop del rest index current).1 ∧
        e.path ∉ (evictLoop del rest index current).2 := by
  induction rest with
  | nil =>
    intro index current hmem _
    exact ⟨hmem, by simp [evictLoop]⟩
  | cons pe rest ih =>
    obtain ⟨n, e₂⟩ := pe
    intro index current hmem huniq
    by_cases hc : (maxCacheSize : Int) < current
    · rcases hd : del e₂.path with _ | _
      · have hunf : evictLoop del ((n, e₂) :: rest) index current =
            evictLoop del rest index current := by
          simp [evictLoop, hc, hd]
        rw [hunf]
        exact ih index current hmem (fun e' he' => huniq e' (List.mem_cons_of_mem _ he'))
      · have hne : n ≠ name := by
          rintro rfl
          have he2 : e₂ = e := huniq e₂ (List.mem_cons_self _ _)
          rw [he2, hdel] at hd
          cases hd
        have hpath : e.path ≠ e₂.path := by
          intro hp
          rw [← hp, hdel] at hd
          cases hd
        have hmem' : (name, e) ∈ mapDelete index n :=
          mem_mapDelete.mpr ⟨hmem, hne.symm⟩
        obtain ⟨h1, h2⟩ := ih (mapDelete index n) (current - (e₂.size : Int)) hmem'
          (fun e' he' => huniq e' (List.mem_cons_of_mem _ he'))
        have hunf : evictLoop del ((n, e₂) :: rest) index current =
            ((evictLoop del rest (mapDelete index n) (current - (e₂.size : Int))).1,
             e₂.path ::
              (evictLoop del rest (mapDelete index n) (current - (e₂.size : Int))).2) := by
          simp [evictLoop, hc, hd]
        rw [hunf]
        refine ⟨h1, ?_⟩
        intro hmem2
        rcases List.mem_cons.mp hmem2 with h | h
        · exact hpath h
        · exact h2 h
    · have hunf : evictLoop del ((n, e₂) :: rest) index current = (index, []) := by
        simp [evictLoop, hc]
      rw [hunf]
      exact ⟨hmem, by simp⟩

theorem getModelFromCache_miss (now : Nat) (fs : FS) {index : CacheIndex} {name : String}
    (h : mapGet index name = none) :
    getModelFromCache now fs index name = ⟨none, index, false⟩ := by
  simp [getModelFromCache, h]

theorem checkDiskSpace_eq_true_iff (env : Env) (s : Nat) :
    checkDiskSpace env s = true ↔ ∃ a, env.diskAvailable = some a ∧ s < a := by
  unfold checkDiskSpace
  rcases env.diskAvailable with _ | a <;> simp

theorem manageCacheSize_oversized_entry (index1 : CacheIndex) (name : String)
    (entry : ModelCacheEntry)
    (hnd1 : (index1.map Prod.fst).Nodup)
    (hpair : (name, entry) ∈ index1)
    (hbig : (maxCacheSize : Int) < (entry.size : Int)) :
    entry.path ∈ (manageCacheSize (fun _ => true) index1).2 ∧
    mapGet (manageCacheSize (fun _ => true) index1).1 name = none := by
  have hperm : index1.Perm (sortEntries index1) := (sortEntries_perm index1).symm
  have hnds : ((sortEntries index1).map Prod.fst).Nodup :=
    ((sortEntries_perm index1).map Prod.fst).nodup_iff.mpr hnd1
  obtain ⟨h1, h2⟩ := evictLoop_del_all (sortEntries index1) index1
    (totalSize (sortEntries index1)) hperm hnds
  have hms : manageCacheSize (fun _ => true) index1 =
      evictLoop (fun _ => true) (sortEntries index1) index1
        (totalSize (sortEntries index1)) := rfl
  have hpairs : (name, entry) ∈ sortEntries index1 :=
    (sortEntries_perm index1).mem_iff.mpr hpair
  have hnotdrop : (name, entry) ∉
      (sortEntries index1).drop
        (sweepSteps (sortEntries index1) (totalSize (sortEntries index1))) := by
    intro hin
    have hle : (entry.size : Int) ≤ totalSize
        ((sortEntries index1).drop
          (sweepSteps (sortEntries index1) (totalSize (sortEntries index1)))) :=
      mem_le_totalSize hin
    rcases sweepSteps_post (sortEntries index1) (totalSize (sortEntries index1)) with
      hpost | hpost
    · have hsplit : totalSize (sortEntries index1) =
          totalSize ((sortEntries index1).take
            (sweepSteps (sortEntries index1) (totalSize (sortEntries index1)))) +
          totalSize ((sortEntries index1).drop
            (sweepSteps (sortEntries index1) (totalSize (sortEntries index1)))) := by
        rw [← totalSize_append, List.take_append_drop]
      omega
    · rw [hpost] at hin
      cases hin
  have htake : (name, entry) ∈ (sortEntries index1).take
      (sweepSteps (sortEntries index1) (totalSize (sortEntries index1))) := by
    have hsplit2 : (name, entry) ∈
        (sortEntries index1).take
          (sweepSteps (sortEntries index1) (totalSize (sortEntries index1))) ++
        (sortEntries index1).drop
          (sweepSteps (sortEntries index1) (totalSize (sortEntries index1))) := by
      rw [List.take_append_drop]
      exact hpairs
    rcases List.mem_append.mp hsplit2 with h | h
    · exact h
    · exact absurd h hnotdrop
  constructor
  · rw [hms, h1]
    exact List.mem_map.mpr ⟨(name, entry), htake, rfl⟩
  · rw [hms]
    apply mapGet_eq_none
    intro p hp
    obtain ⟨n2, e2⟩ := p
    intro hpn
    have hn2 : n2 = name := hpn
    subst hn2
    have hdrop : (n2, e2) ∈
        (sortEntries index1).drop
          (sweepSteps (sortEntries index1) (totalSize (sortEntries index1))) :=
      h2.mem_iff.mp hp
    have hsorte : (n2, e2) ∈ sortEntries index1 := List.drop_subset _ _ hdrop
    have he2 : e2 = entry := nodup_keys_eq hnds hsorte hpairs
    rw [he2] at hdrop
    exact hnotdrop hdrop

/-! ### Claim theorems -/

/-- C1: after any insertion (so for any reachable index with distinct
names), the eviction sweep visits entries in ascending lastUsed order
(oldest first): when every file deletion succeeds, the removed files are
exactly the minimal oldest-first prefix dictated by the reference sweep
(which, while the total exceeds the 10 GiB ceiling and an entry remains,
drops the oldest remaining entry and subtracts its size), the surviving
index holds exactly the remaining entries, and afterwards the total is at
most the ceiling unless everything was evicted. -/
theorem manageCacheSize_lru_eviction (index : CacheIndex)
    (hnd : (index.map Prod.fst).Nodup) :
    (sortEntries index).Pairwise (fun a b => a.2.lastUsed ≤ b.2.lastUsed) ∧
    (manageCacheSize (fun _ => true) index).2 =
      ((sortEntries index).take
        (sweepSteps (sortEntries index) (totalSize (sortEntries index)))).map
        (fun p => p.2.path) ∧
    (manageCacheSize (fun _ => true) index).1.Perm
      ((sortEntries index).drop
        (sweepSteps (sortEntries index) (totalSize (sortEntries index)))) ∧
    (totalSize (manageCacheSize (fun _ => true) index).1 ≤ (maxCacheSize : Int) ∨
      (manageCacheSize (fun _ => true) index).1 = []) := by
  have hperm : index.Perm (sortEntries index) := (sortEntries_perm index).symm
  have hnd' : ((sortEntries index).map Prod.fst).Nodup :=
    ((sortEntries_perm index).map Prod.fst).nodup_iff.mpr hnd
  obtain ⟨h1, h2⟩ :=
    evictLoop_del_all (sortEntries index) index (totalSize (sortEntries index)) hperm hnd'
  refine ⟨sortEntries_sorted index, h1, h2, ?_⟩
  have hms : manageCacheSize (fun _ => true) index =
      evictLoop (fun _ => true) (sortEntries index) index (totalSize (sortEntries index)) := rfl
  rcases sweepSteps_post (sortEntries index) (totalSize (sortEntries index)) with h | h
  · left
    rw [hms]
    have hsplit : totalSize (sortEntries index) =
        totalSize ((sortEntries index).take
          (sweepSteps (sortEntries index) (totalSize (sortEntries index)))) +
        totalSize ((sortEntries index).drop
          (sweepSteps (sortEntries index) (totalSize (sortEntries index)))) := by
      rw [← totalSize_append, List.take_append_drop]
    have hres := totalSize_perm h2
    omega
  · right
    rw [h] at h2
    exact h2.eq_nil

/-- C1 witness: with three cached 5 GiB entries and a fourth 5 GiB entry
just inserted, the sweep removes exactly the files of the two entries with
the smallest lastUsed, the survivors are the two newest entries, and the
remaining total is within the 10 GiB ceiling. -/
theorem manageCacheSize_lru_eviction_witness :
    (demoIndex4.map Prod.fst).Nodup ∧
    (manageCacheSize (fun _ => true) demoIndex4).2 = [demoEntryA.path, demoEntryB.path] ∧
    (manageCacheSize (fun _ => true) demoIndex4).1.Perm
      [("c", demoEntryC), ("d", demoEntryD)] ∧
    totalSize (manageCacheSize (fun _ => true) demoIndex4).1 ≤ (maxCacheSize : Int) := by
  have h := manageCacheSize_lru_eviction demoIndex4 (by decide)
  refine ⟨by decide, h.2.1.trans (by decide), h.2.2.1.trans (List.Perm.of_eq (by decide)), ?_⟩
  rcases h.2.2.2 with hle | hnil
  · exact hle
  · rw [hnil]; decide

/-- C2: the eviction sweep is idempotent: a second run right after a first
one (under the unchanged deletion environment) returns the first run's
index unchanged and removes nothing; and a run whose starting total is
already at or under the ceiling changes no entry. -/
theorem manageCacheSize_idempotent (del : String → Bool) (index : CacheIndex)
    (hnd : (index.map Prod.fst).Nodup) :
    manageCacheSize del (manageCacheSize del index).1 =
      ((manageCacheSize del index).1, []) ∧
    (totalSize index ≤ (maxCacheSize : Int) → manageCacheSize del index = (index, [])) := by
  constructor
  · apply manageCacheSize_noop
    have hperm : index.Perm ([] ++ sortEntries index) := by
      simpa using (sortEntries_perm index).symm
    have hnd' : (([] ++ sortEntries index).map Prod.fst).Nodup := by
      simpa using ((sortEntries_perm index).map Prod.fst).nodup_iff.mpr hnd
    have hcur : totalSize (sortEntries index) = totalSize index :=
      totalSize_perm (sortEntries_perm index)
    exact evictLoop_post del (sortEntries index) index [] (totalSize (sortEntries index))
      hperm hnd' (by intro p hp; cases hp) hcur
  · intro h
    exact manageCacheSize_noop del index (Or.inl h)

/-- C2 witness: running the sweep twice on the four-entry over-ceiling
index equals running it once; and the sweep on an under-ceiling index is a
no-op. -/
theorem manageCacheSize_idempotent_witness :
    manageCacheSize (fun _ => true) (manageCacheSize (fun _ => true) demoIndex4).1 =
      ((manageCacheSize (fun _ => true) demoIndex4).1, []) ∧
    manageCacheSize (fun _ => true) demoSmallIndex = (demoSmallIndex, []) :=
  ⟨(manageCacheSize_idempotent (fun _ => true) demoIndex4 (by decide)).1,
   (manageCacheSize_idempotent (fun _ => true) demoSmallIndex (by decide)).2 (by decide)⟩

/-- C3 counterexample: a single cached entry larger than the ceiling whose
file cannot be deleted.  The sweep selects it (the total exceeds the
ceiling), the unlink fails, and contrary to the claim the entry is NOT
removed from the index: the sweep leaves the index untouched. -/
theorem manageCacheSize_unlink_failure_cex :
    (maxCacheSize : Int) < totalSize [("m", cexFailEntry)] ∧
    (manageCacheSize (fun _ => false) [("m", cexFailEntry)]).1 = [("m", cexFailEntry)] := by
  decide

/-- C3 amended: when deleting the backing file of an entry fails, the sweep
logs and moves on to the next entry; the failed entry is retained in the
index (its size never subtracted from the running total) and its path never
appears among the removed files. -/
theorem manageCacheSize_unlink_failure_retains (del : String → Bool)
    (index : CacheIndex) (name : String) (e : ModelCacheEntry)
    (hnd : (index.map Prod.fst).Nodup)
    (hmem : (name, e) ∈ index) (hdel : del e.path = false) :
    (name, e) ∈ (manageCacheSize del index).1 ∧
      e.path ∉ (manageCacheSize del index).2 := by
  have huniq : ∀ e', (name, e') ∈ sortEntries index → e' = e := by
    intro e' he'
    exact nodup_keys_eq hnd ((sortEntries_perm index).mem_iff.mp he') hmem
  exact evictLoop_retains hdel (sortEntries index) index (totalSize (sortEntries index))
    hmem huniq

/-- C3 amended witness: the oversized entry with a failing unlink stays in
the index and is never reported as removed. -/
theorem manageCacheSize_unlink_failure_retains_witness :
    ([("m", cexFailEntry)].map Prod.fst).Nodup ∧
    ("m", cexFailEntry) ∈ ([("m", cexFailEntry)] : CacheIndex) ∧
    (("m", cexFailEntry) ∈ (manageCacheSize (fun _ => false) [("m", cexFailEntry)]).1 ∧
      cexFailEntry.path ∉ (manageCacheSize (fun _ => false) [("m", cexFailEntry)]).2) :=
  ⟨by decide, by decide,
    manageCacheSize_unlink_failure_retains (fun _ => false) [("m", cexFailEntry)] "m"
      cexFailEntry (by decide) (by decide) rfl⟩

/-- C4 counterexample: an entry whose age reaches the 30-day maximum, whose
backing file exists, and whose size fits the ceiling: the lookup reports a
miss, but contrary to the claim the entry is NOT purged: the index comes
back unchanged and is never saved. -/
theorem getModelFromCache_age_no_purge_cex :
    ¬ (maxModelAge - oldEntryFixture.lastUsed < maxModelAge) ∧
    totalSize [("m", oldEntryFixture)] ≤ (maxCacheSize : Int) ∧
    getModelFromCache maxModelAge [(oldEntryFixture.path, 100)]
      [("m", oldEntryFixture)] "m" = ⟨none, [("m", oldEntryFixture)], false⟩ := by
  decide

/-- C4 amended: a lookup of an entry whose backing file exists but whose
age reaches the maximum returns absent, yet the entry is not purged: the
index is returned unchanged (and not saved), irrespective of the cached
total. -/
theorem getModelFromCache_age_expiry (now : Nat) (fs : FS) (index : CacheIndex)
    (name : String) (e : ModelCacheEntry)
    (hget : mapGet index name = some e)
    (hfile : (lookupFS fs e.path).isSome)
    (hage : ¬ (now - e.lastUsed < maxModelAge)) :
    getModelFromCache now fs index name = ⟨none, index, false⟩ := by
  rcases Option.isSome_iff_exists.mp hfile with ⟨sz, hsz⟩
  simp [getModelFromCache, hget, hsz, hage]

/-- C4 amended witness: a concrete expired entry with a live file is
reported absent and left in the index. -/
theorem getModelFromCache_age_expiry_witness :
    mapGet [("m", oldEntryFixture)] "m" = some oldEntryFixture ∧
    (lookupFS [(oldEntryFixture.path, 100)] oldEntryFixture.path).isSome ∧
    ¬ ((maxModelAge + 5) - oldEntryFixture.lastUsed < maxModelAge) ∧
    getModelFromCache (maxModelAge + 5) [(oldEntryFixture.path, 100)]
      [("m", oldEntryFixture)] "m" = ⟨none, [("m", oldEntryFixture)], false⟩ :=
  ⟨by decide, by decide, by decide,
    getModelFromCache_age_expiry (maxModelAge + 5) [(oldEntryFixture.path, 100)]
      [("m", oldEntryFixture)] "m" oldEntryFixture (by decide) (by decide) (by decide)⟩

/-- C5: a lookup of a name whose entry exists but whose backing file is
missing from disk returns absent, removes the stale entry from the index
(only previously present entries survive), and persists the removal. -/
theorem getModelFromCache_missing_file_heals (now : Nat) (fs : FS) (index : CacheIndex)
    (name : String) (e : ModelCacheEntry)
    (hget : mapGet index name = some e)
    (hfile : lookupFS fs e.path = none) :
    (getModelFromCache now fs index name).ret = none ∧
    mapGet (getModelFromCache now fs index name).index name = none ∧
    (∀ p ∈ (getModelFromCache now fs index name).index, p ∈ index) ∧
    (getModelFromCache now fs index name).saved = true := by
  have hunf : getModelFromCache now fs index name = ⟨none, mapDelete index name, true⟩ := by
    simp [getModelFromCache, hget, hfile]
  rw [hunf]
  refine ⟨rfl, ?_, ?_, rfl⟩
  · exact mapGet_eq_none (fun p hp => (mem_mapDelete.mp hp).2)
  · intro p hp
    exact (mem_mapDelete.mp hp).1

/-- C5 witness: a concrete entry whose file is gone is absent and purged
from the index on the very next lookup, with the index saved. -/
theorem getModelFromCache_missing_file_heals_witness :
    mapGet [("m", staleEntryFixture)] "m" = some staleEntryFixture ∧
    lookupFS [] staleEntryFixture.path = none ∧
    ((getModelFromCache 7 [] [("m", staleEntryFixture)] "m").ret = none ∧
      mapGet (getModelFromCache 7 [] [("m", staleEntryFixture)] "m").index "m" = none ∧
      (∀ p ∈ (getModelFromCache 7 [] [("m", staleEntryFixture)] "m").index,
        p ∈ ([("m", staleEntryFixture)] : CacheIndex)) ∧
      (getModelFromCache 7 [] [("m", staleEntryFixture)] "m").saved = true) :=
  ⟨by decide, by decide,
    getModelFromCache_missing_file_heals 7 [] [("m", staleEntryFixture)] "m"
      staleEntryFixture (by decide) (by decide)⟩

/-- C9 counterexample: two entries with equal lastUsed, inserted under the
names "b" then "a".  A sweep that needs a single eviction removes the file
of "b" (the first-inserted), not of "a" (the alphabetically first): equal
timestamps are NOT ordered by model name. -/
theorem manageCacheSize_tie_not_by_name_cex :
    tieEntryA.lastUsed = tieEntryB.lastUsed ∧
    (manageCacheSize (fun _ => true) [("b", tieEntryB), ("a", tieEntryA)]).2 =
      [tieEntryB.path] ∧
    (manageCacheSize (fun _ => true) [("b", tieEntryB), ("a", tieEntryA)]).1 =
      [("a", tieEntryA)] := by
  decide

/-- C9 amended: the eviction sweep's sort is stable with respect to the
index's insertion order: two entries with equal lastUsed keep their
original relative order in the sorted sweep sequence; model names play no
role in the tie-break. -/
theorem sortEntries_tie_stable (index : CacheIndex) (p q : String × ModelCacheEntry)
    (hsub : [p, q].Sublist index) (heq : p.2.lastUsed = q.2.lastUsed) :
    [p, q].Sublist (sortEntries index) :=
  sortEntries_stable hsub (le_of_eq heq)

/-- C9 amended witness: in the tied two-entry index the pair keeps its
insertion order through the sort. -/
theorem sortEntries_tie_stable_witness :
    [("b", tieEntryB), ("a", tieEntryA)].Sublist
      ([("b", tieEntryB), ("a", tieEntryA)] : CacheIndex) ∧
    tieEntryB.lastUsed = tieEntryA.lastUsed ∧
    [("b", tieEntryB), ("a", tieEntryA)].Sublist
      (sortEntries [("b", tieEntryB), ("a", tieEntryA)]) :=
  ⟨by decide, by decide,
    sortEntries_tie_stable [("b", tieEntryB), ("a", tieEntryA)] ("b", tieEntryB)
      ("a", tieEntryA) (by decide) (by decide)⟩

/-- C6 counterexample: available disk space equals requiredBytes exactly.
The claim ("download attempted iff available at least requiredBytes")
demands a fetch here, but the code requires strictly more:
ensureModelAvailable returns absence without fetching. -/
theorem ensureModelAvailable_space_boundary_cex :
    cexBoundaryEnv.diskAvailable = some demoConfig.requiredDiskSpace ∧
    (ensureModelAvailable cexBoundaryEnv [] [] [demoConfig] .transcription).fetched = false ∧
    (ensureModelAvailable cexBoundaryEnv [] [] [demoConfig] .transcription).ret = none := by
  refine ⟨rfl, by decide, by decide⟩

/-- C6 amended: with the descriptor resolved, a cache miss, and the local
file absent, a network download is attempted if and only if the disk-space
oracle reports strictly more available bytes than requiredBytes; with at
most requiredBytes available (or a failing probe), ensureModelAvailable
returns absence without issuing any network fetch. -/
theorem ensureModelAvailable_space_gate (env : Env) (fs : FS) (index : CacheIndex)
    (configs : List ModelConfig) (t : ModelType) (config : ModelConfig)
    (hfind : configs.find? (fun c => c.type == t) = some config)
    (hmiss : mapGet index config.name = none)
    (habsent : lookupFS fs config.localPath = none) :
    ((ensureModelAvailable env fs index configs t).fetched = true ↔
      ∃ a, env.diskAvailable = some a ∧ config.requiredDiskSpace < a) ∧
    ((∀ a, env.diskAvailable = some a → a ≤ config.requiredDiskSpace) →
      (ensureModelAvailable env fs index configs t).ret = none ∧
        (ensureModelAvailable env fs index configs t).fetched = false) := by
  have hlk : getModelFromCache env.now fs index config.name = ⟨none, index, false⟩ :=
    getModelFromCache_miss env.now fs hmiss
  have hfe : (ensureModelAvailable env fs index configs t).fetched =
        (downloadModel env fs index config).fetched ∧
      ((downloadModel env fs index config).ret = none →
        (ensureModelAvailable env fs index configs t).ret = none) := by
    rcases hd : (downloadModel env fs index config).ret with _ | p <;>
      simp [ensureModelAvailable, hfind, hlk, habsent, hd]
  have hdf : (downloadModel env fs index config).fetched =
      checkDiskSpace env config.requiredDiskSpace := by
    rcases hds : checkDiskSpace env config.requiredDiskSpace with _ | _
    · simp [downloadModel, hds]
    · rcases hfo : env.fetch with b | _ | _
      · rcases hw : env.writeOk with _ | _ <;> simp [downloadModel, hds, hlk, hfo, hw]
      · simp [downloadModel, hds, hlk, hfo]
      · simp [downloadModel, hds, hlk, hfo]
  constructor
  · rw [hfe.1, hdf]
    exact checkDiskSpace_eq_true_iff env config.requiredDiskSpace
  · intro hinsuf
    have hds : checkDiskSpace env config.requiredDiskSpace = false := by
      rcases henv : env.diskAvailable with _ | a
      · simp [checkDiskSpace, henv]
      · have ha := hinsuf a henv
        simp [checkDiskSpace, henv]
        omega
    have hdm : downloadModel env fs index config = ⟨none, index, fs, false, []⟩ := by
      simp [downloadModel, hds]
    refine ⟨hfe.2 (by rw [hdm]), ?_⟩
    rw [hfe.1, hdf]
    exact hds

/-- C6 amended witness: with strictly more space available than required, a
fetch is issued (here answered by a non-ok status). -/
theorem ensureModelAvailable_space_gate_witness :
    ([demoConfig].find? (fun c => c.type == ModelType.transcription) = some demoConfig) ∧
    mapGet [] demoConfig.name = none ∧
    lookupFS [] demoConfig.localPath = none ∧
    (ensureModelAvailable demoHttpFailEnv [] [] [demoConfig] .transcription).fetched = true := by
  refine ⟨by decide, by decide, by decide, ?_⟩
  exact (ensureModelAvailable_space_gate demoHttpFailEnv [] [] [demoConfig] .transcription
    demoConfig (by decide) (by decide) (by decide)).1.mpr ⟨1000, rfl, by decide⟩

/-- C7: on a cache miss with the local file present, a declared checksum,
and a failing digest comparison, ensureModelAvailable returns absence,
leaves the filesystem untouched (the invalid file is not deleted), issues
no network fetch, and unlinks nothing. -/
theorem ensureModelAvailable_checksum_mismatch (env : Env) (fs : FS) (index : CacheIndex)
    (configs : List ModelConfig) (t : ModelType) (config : ModelConfig)
    (hfind : configs.find? (fun c => c.type == t) = some config)
    (hmiss : mapGet index config.name = none)
    (hpresent : (lookupFS fs config.localPath).isSome)
    (hck : config.checksum ≠ "")
    (hbad : env.digestMatches config.localPath config.checksum = false) :
    ensureModelAvailable env fs index configs t = ⟨none, index, fs, false, []⟩ := by
  have hlk : getModelFromCache env.now fs index config.name = ⟨none, index, false⟩ :=
    getModelFromCache_miss env.now fs hmiss
  rcases Option.isSome_iff_exists.mp hpresent with ⟨sz, hsz⟩
  have hck' : (config.checksum != "") = true := by simpa using hck
  simp [ensureModelAvailable, hfind, hlk, hsz, hck', hbad]

/-- C7 witness: a concrete mismatching local file yields absence with the
filesystem unchanged and no fetch. -/
theorem ensureModelAvailable_checksum_mismatch_witness :
    ([demoChecksumConfig].find? (fun c => c.type == ModelType.transcription) =
      some demoChecksumConfig) ∧
    mapGet [] demoChecksumConfig.name = none ∧
    (lookupFS [(demoChecksumConfig.localPath, 77)] demoChecksumConfig.localPath).isSome ∧
    demoChecksumConfig.checksum ≠ "" ∧
    ensureModelAvailable demoBadDigestEnv [(demoChecksumConfig.localPath, 77)] []
      [demoChecksumConfig] .transcription =
      ⟨none, [], [(demoChecksumConfig.localPath, 77)], false, []⟩ :=
  ⟨by decide, by decide, by decide, by decide,
    ensureModelAvailable_checksum_mismatch demoBadDigestEnv
      [(demoChecksumConfig.localPath, 77)] [] [demoChecksumConfig] .transcription
      demoChecksumConfig (by decide) (by decide) (by decide) (by decide) rfl⟩

/-- C8: a failed download attempt (non-ok response status, network or
timeout error, or write failure) returns null, registers no cache index
entry for the model, unlinks nothing, and a non-ok response status leaves
the filesystem unchanged (no partial file at the target path). -/
theorem downloadModel_failure_clean (env : Env) (fs : FS) (index : CacheIndex)
    (config : ModelConfig)
    (hfail : env.fetch = .httpError ∨ env.fetch = .netError ∨ env.writeOk = false)
    (hmiss : mapGet index config.name = none) :
    (downloadModel env fs index config).ret = none ∧
    mapGet (downloadModel env fs index config).index config.name = none ∧
    (downloadModel env fs index config).deleted = [] ∧
    (env.fetch = .httpError → (downloadModel env fs index config).fs = fs) := by
  have hlk : getModelFromCache env.now fs index config.name = ⟨none, index, false⟩ :=
    getModelFromCache_miss env.now fs hmiss
  rcases hds : checkDiskSpace env config.requiredDiskSpace with _ | _
  · simp [downloadModel, hds, hmiss]
  · rcases hfo : env.fetch with b | _ | _
    · have hw : env.writeOk = false := by
        rcases hfail with hf | hf | hf
        · rw [hfo] at hf; cases hf
        · rw [hfo] at hf; cases hf
        · exact hf
      simp [downloadModel, hds, hlk, hfo, hw, hmiss]
    · simp [downloadModel, hds, hlk, hfo, hmiss]
    · simp [downloadModel, hds, hlk, hfo, hmiss]

/-- C8 witness: a concrete non-ok download attempt returns null with index
and filesystem untouched. -/
theorem downloadModel_failure_clean_witness :
    (demoHttpFailEnv.fetch = .httpError ∨ demoHttpFailEnv.fetch = .netError ∨
      demoHttpFailEnv.writeOk = false) ∧
    mapGet [] demoConfig.name = none ∧
    ((downloadModel demoHttpFailEnv [] [] demoConfig).ret = none ∧
      mapGet (downloadModel demoHttpFailEnv [] [] demoConfig).index demoConfig.name = none ∧
      (downloadModel demoHttpFailEnv [] [] demoConfig).deleted = [] ∧
      (demoHttpFailEnv.fetch = .httpError →
        (downloadModel demoHttpFailEnv [] [] demoConfig).fs = [])) :=
  ⟨Or.inl rfl, by decide,
    downloadModel_failure_clean demoHttpFailEnv [] [] demoConfig (Or.inl rfl) (by decide)⟩

/-- C10: inserting an artifact whose size alone exceeds the 10 GiB ceiling
(all file deletions succeeding) makes the sweep triggered by cacheModel
unlink the just-copied cache file and drop the just-created index entry
before cacheModel returns, yet cacheModel still returns the cached path as
a success: the caller receives a path whose file is gone while the index
holds no entry for the model. -/
theorem cacheModel_oversized_evicts_itself (now : Nat) (fs : FS) (index : CacheIndex)
    (modelName modelPath version : String) (s : Nat)
    (hnd : (index.map Prod.fst).Nodup)
    (hstat : lookupFS fs modelPath = some s)
    (hbig : (maxCacheSize : Int) < (s : Int)) :
    (cacheModel (fun _ => true) now fs index modelName modelPath version).ret =
      some (cachedPathFor modelName version modelPath) ∧
    cachedPathFor modelName version modelPath ∈
      (cacheModel (fun _ => true) now fs index modelName modelPath version).deleted ∧
    mapGet (cacheModel (fun _ => true) now fs index modelName modelPath version).index
      modelName = none := by
  have hbig' : (maxCacheSize : Int) <
      ((⟨cachedPathFor modelName version modelPath, now, s, version⟩ :
        ModelCacheEntry).size : Int) := hbig
  have hnd1 : ((mapSet index modelName
      ⟨cachedPathFor modelName version modelPath, now, s, version⟩).map Prod.fst).Nodup :=
    nodup_mapSet modelName _ hnd
  have hpair := mem_mapSet_self index modelName
    ⟨cachedPathFor modelName version modelPath, now, s, version⟩
  obtain ⟨hdel, hget⟩ := manageCacheSize_oversized_entry _ modelName _ hnd1 hpair hbig'
  have hunf : cacheModel (fun _ => true) now fs index modelName modelPath version =
      ⟨some (cachedPathFor modelName version modelPath),
        (manageCacheSize (fun _ => true) (mapSet index modelName
          ⟨cachedPathFor modelName version modelPath, now, s, version⟩)).1,
        (manageCacheSize (fun _ => true) (mapSet index modelName
          ⟨cachedPathFor modelName version modelPath, now, s, version⟩)).2⟩ := by
    simp [cacheModel, hstat]
  rw [hunf]
  exact ⟨rfl, hdel, hget⟩

/-- C10 witness: caching a single artifact one byte over the ceiling into
an empty cache reports success with the cached path, yet that path is among
the unlinked files and the index ends without the model. -/
theorem cacheModel_oversized_evicts_itself_witness :
    (([] : CacheIndex).map Prod.fst).Nodup ∧
    lookupFS [("big.bin", maxCacheSize + 1)] "big.bin" = some (maxCacheSize + 1) ∧
    (maxCacheSize : Int) < ((maxCacheSize + 1 : Nat) : Int) ∧
    ((cacheModel (fun _ => true) 0 [("big.bin", maxCacheSize + 1)] [] "m" "big.bin"
        "1.0.0").ret = some (cachedPathFor "m" "1.0.0" "big.bin") ∧
      cachedPathFor "m" "1.0.0" "big.bin" ∈
        (cacheModel (fun _ => true) 0 [("big.bin", maxCacheSize + 1)] [] "m" "big.bin"
          "1.0.0").deleted ∧
      mapGet (cacheModel (fun _ => true) 0 [("big.bin", maxCacheSize + 1)] [] "m"
        "big.bin" "1.0.0").index "m" = none) :=
  ⟨by decide, by decide, by decide,
    cacheModel_oversized_evicts_itself 0 [("big.bin", maxCacheSize + 1)] [] "m" "big.bin"
      "1.0.0" (maxCacheSize + 1) (by decide) (by decide) (by decide)⟩

end AudioSummarizer
